import Mathlib

set_option autoImplicit false

namespace Logg

/-! Shallow embedding of the attribute accumulation and merge engine of
`internal/handler.go` (package `internal` of the logg module), together with
the parts of Go's `log/slog` value model that the handler code relies on
(`Value`, `Attr`, `GroupValue`, `Value.Resolve`, `Attr.Equal` against the
zero attribute, and `Record.AddAttrs`).  Machine integers never overflow in
this code, so Go `int64`/`uint64` are modelled as `Int`/`Nat`.  The opaque
payload of a `KindAny` value is modelled as a `Nat` tag; `time.Time` is
modelled as a `Nat` where `0` stands for the zero time. -/

/-- Model of log/slog `Kind`: the tag of the `Value` tagged union. -/
inductive Kind where
  | any
  | bool
  | duration
  | float64
  | int64
  | str
  | time
  | uint64
  | group
  | logValuer
  deriving DecidableEq, Repr

mutual
/-- Model of log/slog `Value`.  `vNil` is the zero `Value` (kind `Any` with a
nil payload); `vAnyLevel` is an `Any` value wrapping a `slog.Level` (what
`slog.Any(slog.LevelKey, rec.Level)` produces); `vLogValuer` is a lazy value
that resolves to its inner value (one unwrapping step per resolution
iteration). -/
inductive Value where
  | vString (s : String)
  | vBool (b : Bool)
  | vInt64 (i : Int)
  | vUint64 (n : Nat)
  | vFloat64 (bits : Nat)
  | vDuration (d : Int)
  | vTime (t : Nat)
  | vGroup (attrs : List Attr)
  | vLogValuer (inner : Value)
  | vNil
  | vAnyLevel (lvl : Int)
  | vAny (payload : Nat)

/-- Model of log/slog `Attr`: a key/value pair. -/
inductive Attr where
  | mk (key : String) (value : Value)
end

/-- Key accessor of an attribute. -/
def Attr.key : Attr → String
  | .mk k _ => k

/-- Value accessor of an attribute. -/
def Attr.value : Attr → Value
  | .mk _ v => v


/-- Model of `Value.Kind()`. -/
def Value.kind : Value → Kind
  | .vString _ => .str
  | .vBool _ => .bool
  | .vInt64 _ => .int64
  | .vUint64 _ => .uint64
  | .vFloat64 _ => .float64
  | .vDuration _ => .duration
  | .vTime _ => .time
  | .vGroup _ => .group
  | .vLogValuer _ => .logValuer
  | .vNil => .any
  | .vAnyLevel _ => .any
  | .vAny _ => .any

/-- Model of `Value.Group()`: the children of a group value (the Go method
panics on other kinds; every call site in the handler guards the kind, so the
default branch is never reached there). -/
def Value.group : Value → List Attr
  | .vGroup attrs => attrs
  | _ => []

/-- Model of the unexported `Value.isEmptyGroup` of log/slog: a group value
with zero children. -/
def Value.isEmptyGroup : Value → Bool
  | .vGroup [] => true
  | _ => false

/-- Model of `slog.GroupValue`: builds a group value, removing members whose
value is an empty group. -/
def GroupValue (as : List Attr) : Value :=
  Value.vGroup (as.filter (fun a => !a.value.isEmptyGroup))

/-- Model of `SlogGroupAttrs` of `internal/handler.go` (the `slog.GroupAttrs`
polyfill): an attribute with the given key whose value is `GroupValue attrs`. -/
def SlogGroupAttrs (key : String) (attrs : List Attr) : Attr :=
  Attr.mk key (GroupValue attrs)

/-- Model of `attr.Equal(slog.Attr{})`: the key is the empty string and the
value is the zero value (kind `Any`, nil payload). -/
def Attr.isEmpty : Attr → Bool
  | .mk k v =>
    k == "" && (match v with
      | .vNil => true
      | _ => false)

/-- One hundred unwrapping steps of `Value.Resolve`; when the fuel runs out
the Go code returns an error wrapped in an `Any` value, modelled as
`Value.vAny 0`. -/
def resolveLoop : Nat → Value → Value
  | 0, _ => Value.vAny 0
  | n + 1, v =>
    match v with
    | .vLogValuer inner => resolveLoop n inner
    | _ => v

/-- Model of `Value.Resolve()`: unwrap lazy values, at most 100 times. -/
def Value.Resolve (v : Value) : Value := resolveLoop 100 v

/-! Group-nesting depth, used to pick an adequate fuel for `mergeAttrs`
(whose only recursion, through `mergeGroups`, descends into group values). -/

mutual
/-- Group-nesting depth of a value. -/
def vdepth : Value → Nat
  | .vGroup attrs => ldepth attrs + 1
  | _ => 0

/-- Group-nesting depth of an attribute list: the maximum over its members. -/
def ldepth : List Attr → Nat
  | [] => 0
  | .mk _ v :: rest => max (vdepth v) (ldepth rest)
end


/-! The merge engine of `internal/handler.go`.  Go's `map[string]slog.Attr`
is modelled as an association list where `mapInsert` conses the new binding
and `mapGet` returns the most recent one; the code never iterates the map, so
this captures exactly the observable map behavior. -/

/-- Association-list model of the Go map `attrsBykey`. -/
abbrev AttrMap := List (String × Attr)

/-- Model of Go map indexing: the most recently inserted binding for a key. -/
def mapGet : AttrMap → String → Option Attr
  | [], _ => none
  | (k2, a) :: rest, k => if k2 = k then some a else mapGet rest k

/-- Model of Go map assignment. -/
def mapInsert (m : AttrMap) (k : String) (a : Attr) : AttrMap := (k, a) :: m


/-- The zero `slog.Attr`, which Go map indexing returns for a missing key. -/
def zeroAttr : Attr := Attr.mk "" Value.vNil

/-- Pass 1 over `prevList`: insert every attribute keyed by its key; later
duplicates within the list overwrite earlier ones. -/
def pass1Prev : AttrMap → List Attr → AttrMap
  | m, [] => m
  | m, a :: rest => pass1Prev (mapInsert m a.key a) rest

/-- One arm of pass 2: iterate a list, and for each key not yet in `added`
append the map's attribute for that key to `out` and record the key. -/
def pass2Loop (m : AttrMap) : List String → List Attr → List Attr → List String × List Attr
  | added, out, [] => (added, out)
  | added, out, a :: rest =>
    if added.contains a.key then pass2Loop m added out rest
    else pass2Loop m (a.key :: added) (out ++ [(mapGet m a.key).getD zeroAttr]) rest

/-- Pass 2 of `mergeAttrs`: emit attributes in `nextList` first-occurrence
key order, then keys unique to `prevList` in their first-occurrence order,
each position carrying the pass-1 resolved attribute.  (`slices.Clip` only
trims spare capacity and is a no-op on contents.) -/
def pass2 (m : AttrMap) (nextList prevList : List Attr) : List Attr :=
  (pass2Loop m (pass2Loop m [] [] nextList).1 (pass2Loop m [] [] nextList).2 prevList).2

/-- Model of `mergeGroups` of `internal/handler.go`, abstracted over the
recursive call to `mergeAttrs`: `none` is the error case (some side is not a
group), on which the caller falls back to a plain overwrite. -/
def mergeGroupsCore (rec : List Attr → List Attr → List Attr) (prev next : Attr) : Option Attr :=
  if prev.value.kind = Kind.group ∧ next.value.kind = Kind.group then
    some (SlogGroupAttrs prev.key (rec prev.value.group next.value.group))
  else none

/-- The attribute that pass 1 stores for one `nextList` entry `a`, given the
map's current binding for its key: when the key already maps to a value and
both values are groups, the groups are merged (`mergeGroupsCore`); a
`mergeGroupsCore` error, or any other collision, is a plain overwrite. -/
def pass1Resolve (rec : List Attr → List Attr → List Attr) (prevOpt : Option Attr)
    (a : Attr) : Attr :=
  match prevOpt with
  | some prev =>
    if prev.value.kind = Kind.group ∧ a.value.kind = Kind.group then
      match mergeGroupsCore rec prev a with
      | some merged => merged
      | none => a
    else a
  | none => a

/-- Pass 1 over `nextList`, abstracted over the recursive call to
`mergeAttrs`: like `pass1Prev`, except that group collisions are resolved by
`pass1Resolve`. -/
def pass1Next (rec : List Attr → List Attr → List Attr) : AttrMap → List Attr → AttrMap
  | m, [] => m
  | m, a :: rest => pass1Next rec (mapInsert m a.key (pass1Resolve rec (mapGet m a.key) a)) rest

/-- One level of `mergeAttrs` of `internal/handler.go`, abstracted over the
recursive call made by the group merge. -/
def mergeCore (rec : List Attr → List Attr → List Attr) (prevList nextList : List Attr) : List Attr :=
  match prevList, nextList with
  | _ :: _, [] => prevList
  | [], _ :: _ => nextList
  | [], [] => []
  | _ :: _, _ :: _ =>
    pass2 (pass1Next rec (pass1Prev [] prevList) nextList) nextList prevList

/-- Fueled model of `mergeAttrs` of `internal/handler.go`.  The fuel only
limits the group-merge recursion; `mergeAttrs` below always supplies enough
fuel, so the `fuel = 0` placeholder is never reached from it. -/
def mergeAttrsF : Nat → List Attr → List Attr → List Attr
  | 0, _, _ => []
  | fuel + 1, prevList, nextList => mergeCore (mergeAttrsF fuel) prevList nextList

/-- Fuel that is always adequate for one level of `mergeAttrsF`: one more
than the group nesting depth of the inputs. -/
def mergeFuel (prevList nextList : List Attr) : Nat :=
  max (ldepth prevList) (ldepth nextList)

/-- Model of `mergeAttrs` of `internal/handler.go` (the spec's
`mergeAttributeLists`). -/
def mergeAttrs (prevList nextList : List Attr) : List Attr :=
  mergeAttrsF (mergeFuel prevList nextList + 1) prevList nextList

/-- Model of `mergeGroups` of `internal/handler.go` as a standalone
function. -/
def mergeGroups (prev next : Attr) : Option Attr :=
  if prev.value.kind = Kind.group ∧ next.value.kind = Kind.group then
    some (SlogGroupAttrs prev.key (mergeAttrs prev.value.group next.value.group))
  else none

end Logg
namespace Logg

/-! The frame accumulator and record builder of `internal/handler.go`. -/

/-- Model of the `groupOrAttrs` struct: one frame of accumulated handler
state.  `groupName` is non-empty for frames created through `WithGroup`;
`attrs` is non-empty for frames created through `WithAttrs`. -/
structure GroupOrAttrs where
  groupName : String
  attrs : List Attr

/-- A Go slice together with its capacity.  The handler's frame list is kept
in one; `copyAppend` always produces a slice whose capacity equals its
length, which is what makes sibling derivations unable to share backing
storage through later appends. -/
structure GoSlice (α : Type) where
  data : List α
  cap : Nat

/-- Model of `copyAppend` of `internal/handler.go`: allocate a fresh backing
array of capacity `len(originals) + len(tail)` (`make([]T, len(originals),
nextLen)`), copy the originals, and append the tail, which fits exactly. -/
def copyAppend {α : Type} (originals : GoSlice α) (tail : List α) : GoSlice α :=
  { data := originals.data ++ tail, cap := originals.data.length + tail.length }

/-- Model of `slog.Record`: `time = 0` stands for the zero time; `level` is
the `slog.Level` integer; `attrs` are the record's own attributes in order. -/
structure Record where
  time : Nat
  level : Int
  message : String
  pc : Nat
  attrs : List Attr

/-- Model of `AttrHandler`: handler state.  `level` is
`opts.Level` (`none` when unset), `replaceAttr` is `opts.ReplaceAttr`,
`captureRecord` is `opts.CaptureRecord` (returning `none` for a nil error),
and `groupsOrAttrs` is the accumulated frame list. -/
structure AttrHandler where
  level : Option Int
  replaceAttr : Option (List String → Attr → Attr)
  captureRecord : Option (Record → Option String)
  groupsOrAttrs : GoSlice GroupOrAttrs

/-- Model of `NewAttrHandler`: empty frame list with spare capacity 4. -/
def NewAttrHandler (level : Option Int) (replaceAttr : Option (List String → Attr → Attr))
    (captureRecord : Option (Record → Option String)) : AttrHandler :=
  { level := level, replaceAttr := replaceAttr, captureRecord := captureRecord,
    groupsOrAttrs := { data := [], cap := 4 } }

/-- Model of `AttrHandler.Enabled`: the record level is at least the
configured minimum, which defaults to `slog.LevelInfo = 0`. -/
def AttrHandler.Enabled (h : AttrHandler) (lvl : Int) : Bool :=
  lvl ≥ h.level.getD 0

/-- Model of `AttrHandler.WithAttrs`: a no-op for an empty attribute list,
otherwise a copy of the handler whose frame list is extended, through
`copyAppend`, with one attribute-batch frame. -/
def AttrHandler.WithAttrs (h : AttrHandler) (attrs : List Attr) : AttrHandler :=
  if attrs.length = 0 then h
  else { h with groupsOrAttrs := copyAppend h.groupsOrAttrs [GroupOrAttrs.mk "" attrs] }

/-- Model of `AttrHandler.WithGroup`: a no-op for the empty name, otherwise a
copy of the handler whose frame list is extended, through `copyAppend`, with
one group-push frame. -/
def AttrHandler.WithGroup (h : AttrHandler) (name : String) : AttrHandler :=
  if name = "" then h
  else { h with groupsOrAttrs := copyAppend h.groupsOrAttrs [GroupOrAttrs.mk name []] }

/-- Model of `applyGroupsToAttrs` of `internal/handler.go`: wrap `data` in
nested groups, innermost (the last name) first. -/
def wrapFrom (g : String) (gs : List String) (data : List Attr) : Attr :=
  match gs with
  | [] => SlogGroupAttrs g data
  | g2 :: rest => SlogGroupAttrs g [wrapFrom g2 rest data]

/-- Model of `applyGroupsToAttrs` of `internal/handler.go`. -/
def applyGroupsToAttrs (groups : List String) (data : List Attr) : List Attr :=
  match groups with
  | [] => data
  | g :: gs => [wrapFrom g gs data]

/-- Apply the optional `replaceAttr` callback to every member of a list with
the given group path (the `for i, attr := range ...` rewrite loops of
`buildRecordAttrs`). -/
def applyRAList (ra : Option (List String → Attr → Attr)) (groupPath : List String)
    (l : List Attr) : List Attr :=
  match ra with
  | some f => l.map (f groupPath)
  | none => l

/-- Whether a frame is a group push (`goa.GroupName != ""`). -/
def isGroupFrame (g : GroupOrAttrs) : Bool := g.groupName != ""

/-- The trimming loop of `buildRecordAttrs`: when the record has no
attributes, remove group-push frames from the end of the walked list. -/
def trimTrailingGroups (l : List GroupOrAttrs) : List GroupOrAttrs :=
  (l.reverse.dropWhile isGroupFrame).reverse

/-- The trailing group-push frames removed by `trimTrailingGroups`. -/
def trailingGroups (l : List GroupOrAttrs) : List GroupOrAttrs :=
  (l.reverse.takeWhile isGroupFrame).reverse

/-- The `goas` walk of `buildRecordAttrs`.  Returns the final group path, the
merged output so far, and the frame list as left in the handler's storage
after the walk: when the group path is empty, `applyGroupsToAttrs` returns
the stored batch itself, so the `replaceAttr` rewrite loop writes through to
the stored frame — the third component models that in-place update. -/
def walkGoas (ra : Option (List String → Attr → Attr)) :
    List String → List Attr → List GroupOrAttrs →
    List String × List Attr × List GroupOrAttrs
  | groupPath, out, [] => (groupPath, out, [])
  | groupPath, out, goa :: rest =>
    if goa.groupName ≠ "" then
      let r := walkGoas ra (groupPath ++ [goa.groupName]) out rest
      (r.1, r.2.1, goa :: r.2.2)
    else
      let subGroup := applyRAList ra groupPath (applyGroupsToAttrs groupPath goa.attrs)
      let goa2 := if groupPath.isEmpty ∧ ra.isSome then GroupOrAttrs.mk goa.groupName subGroup
        else goa
      let r := walkGoas ra groupPath (mergeAttrs out subGroup) rest
      (r.1, r.2.1, goa2 :: r.2.2)

/-- Apply the optional `replaceAttr` callback to one built-in attribute with
the empty group path. -/
def applyRA (ra : Option (List String → Attr → Attr)) (a : Attr) : Attr :=
  match ra with
  | some f => f [] a
  | none => a

/-- The built-in attributes placed first by `buildRecordAttrs`: the
`time`-keyed attribute when the record time is non-zero, then the `level`-
and `msg`-keyed attributes, each passed through `replaceAttr` (with an empty
group path) when configured and appended unconditionally. -/
def builtinAttrs (ra : Option (List String → Attr → Attr)) (rec : Record) : List Attr :=
  (if rec.time ≠ 0 then [applyRA ra (Attr.mk "time" (Value.vTime rec.time))] else [])
    ++ [applyRA ra (Attr.mk "level" (Value.vAnyLevel rec.level)),
        applyRA ra (Attr.mk "msg" (Value.vString rec.message))]

/-- The `rec.Attrs` loop of `buildRecordAttrs`: resolve each value, drop
empty attributes, keep named groups regrouped through `SlogGroupAttrs`, and
inline the children of groups with an empty key. -/
def processRecordAttrs : List Attr → List Attr
  | [] => []
  | a :: rest =>
    if (Attr.mk a.key a.value.Resolve).isEmpty then processRecordAttrs rest
    else if ¬ a.value.Resolve.kind = Kind.group then
      Attr.mk a.key a.value.Resolve :: processRecordAttrs rest
    else if ¬ a.key = "" then
      SlogGroupAttrs a.key a.value.Resolve.group :: processRecordAttrs rest
    else a.value.Resolve.group ++ processRecordAttrs rest

/-- The frame list that `buildRecordAttrs` walks: when the record has no
attributes, trailing group-push frames are trimmed first. -/
def walkedFrames (goas : List GroupOrAttrs) (rec : Record) : List GroupOrAttrs :=
  if rec.attrs.length < 1 then trimTrailingGroups goas else goas

/-- The stored frames that the walk of `buildRecordAttrs` never touches: the
trailing group-push frames removed by the trimming, which stay in the
handler's storage. -/
def untouchedFrames (goas : List GroupOrAttrs) (rec : Record) : List GroupOrAttrs :=
  if rec.attrs.length < 1 then trailingGroups goas else []

/-- The record-attribute phase of `buildRecordAttrs`: process the record's
own attributes, pass them through `replaceAttr`, wrap them in the group path,
pass the wrapped result through `replaceAttr` again, then append (empty group
path) or merge (non-empty group path) into the accumulated output. -/
def recordPhase (ra : Option (List String → Attr → Attr)) (groupPath : List String)
    (out : List Attr) (attrs : List Attr) : List Attr :=
  if groupPath.length < 1 then
    out ++ applyRAList ra groupPath
      (applyGroupsToAttrs groupPath (applyRAList ra groupPath (processRecordAttrs attrs)))
  else
    mergeAttrs out (applyRAList ra groupPath
      (applyGroupsToAttrs groupPath (applyRAList ra groupPath (processRecordAttrs attrs))))

/-- Model of `AttrHandler.buildRecordAttrs`.  The first component is the
returned attribute list; the second is the handler's stored frame list after
the call (the Go function mutates stored attribute batches in place when
`replaceAttr` is configured and the group path is still empty). -/
def AttrHandler.buildRecordAttrs (h : AttrHandler) (rec : Record) :
    List Attr × List GroupOrAttrs :=
  (recordPhase h.replaceAttr
     (walkGoas h.replaceAttr [] (builtinAttrs h.replaceAttr rec)
       (walkedFrames h.groupsOrAttrs.data rec)).1
     (walkGoas h.replaceAttr [] (builtinAttrs h.replaceAttr rec)
       (walkedFrames h.groupsOrAttrs.data rec)).2.1
     rec.attrs,
   (walkGoas h.replaceAttr [] (builtinAttrs h.replaceAttr rec)
       (walkedFrames h.groupsOrAttrs.data rec)).2.2
     ++ untouchedFrames h.groupsOrAttrs.data rec)

/-- Model of `slog.Record.AddAttrs`: append the attributes, omitting those
whose value is an empty group. -/
def Record.AddAttrs (r : Record) (attrs : List Attr) : Record :=
  { r with attrs := r.attrs ++ attrs.filter (fun a => !a.value.isEmptyGroup) }

/-- The cloned record that `AttrHandler.Handle` passes to the capture
callback: a fresh record with the same time, level, message and pc, holding
the built attribute list. -/
def AttrHandler.handleCloned (h : AttrHandler) (rec : Record) : Record :=
  Record.AddAttrs (Record.mk rec.time rec.level rec.message rec.pc [])
    (h.buildRecordAttrs rec).1

/-- Model of `AttrHandler.Handle`: build the cloned record, call the capture
callback on it when one is configured and return its outcome, otherwise
return `none` (a nil error). -/
def AttrHandler.Handle (h : AttrHandler) (rec : Record) : Option String :=
  match h.captureRecord with
  | some capture => capture (h.handleCloned rec)
  | none => none

/-- The sequence of capture-callback invocations performed by one call to
`AttrHandler.Handle`, each entry recording the record passed. -/
def AttrHandler.handleCaptureCalls (h : AttrHandler) (rec : Record) : List Record :=
  match h.captureRecord with
  | some _ => [h.handleCloned rec]
  | none => []

/-- The handler's stored frame list after one call to `Handle`. -/
def AttrHandler.handleUpdatedGoas (h : AttrHandler) (rec : Record) : List GroupOrAttrs :=
  (h.buildRecordAttrs rec).2

/-- Replace the configured level of a handler, leaving everything else. -/
def AttrHandler.setLevel (h : AttrHandler) (lvl : Option Int) : AttrHandler :=
  { h with level := lvl }

end Logg

namespace Logg

/-! Specification-side functions used to state the merge contract, and the
concrete instances used by counterexamples and witnesses. -/

/-- The keys of an attribute list, in order. -/
def keysOf (l : List Attr) : List String := l.map Attr.key

/-- The keys of a list in first-occurrence order, skipping keys in `added`:
the key order produced by one arm of pass 2. -/
def newKeys (added : List String) : List Attr → List String
  | [] => []
  | a :: rest =>
    if a.key ∈ added then newKeys added rest
    else a.key :: newKeys (a.key :: added) rest

/-- The keys of a list in first-occurrence order. -/
def firstOccKeys (l : List Attr) : List String := newKeys [] l

/-- The key order of a `mergeAttrs` result when both inputs are non-empty:
keys of `nextList` in first-occurrence order, then keys unique to `prevList`
in their first-occurrence order. -/
def mergeOutKeys (prevList nextList : List Attr) : List String :=
  firstOccKeys nextList
    ++ (firstOccKeys prevList).filter (fun k => !(keysOf nextList).contains k)

/-- The pass-1 key map that `mergeAttrs` builds when both inputs are
non-empty. -/
def mergePass1Map (prevList nextList : List Attr) : AttrMap :=
  pass1Next (mergeAttrsF (mergeFuel prevList nextList)) (pass1Prev [] prevList) nextList

/-- The first attribute of a list carrying the given key. -/
def findWithKey : List Attr → String → Option Attr
  | [], _ => none
  | a :: rest, k => if a.key = k then some a else findWithKey rest k

/-- The last attribute of a list carrying the given key. -/
def lastWithKey (l : List Attr) (k : String) : Option Attr := findWithKey l.reverse k

/-- Every value reachable through the map beneath the given group-nesting
depth bound. -/
def mapDepthLE (m : AttrMap) (d : Nat) : Prop :=
  ∀ k a, mapGet m k = some a → vdepth a.value ≤ d

/-- Group-push frames for a list of names. -/
def groupFrames (names : List String) : List GroupOrAttrs :=
  names.map (fun nm => GroupOrAttrs.mk nm [])

/-- Specification-side description of the group nest that
`applyGroupsToAttrs` builds for a non-empty name list: the innermost group is
keyed by the last name and wraps `data`; walking backward, each earlier name
wraps the previous single group; each wrap goes through `SlogGroupAttrs`
(that is, `slog.GroupValue`), which drops children that are empty groups. -/
def nestWrap (groups : List String) (data : List Attr) : Attr :=
  groups.dropLast.foldr (fun nm acc => SlogGroupAttrs nm [acc])
    (SlogGroupAttrs (groups.getLastD "") data)

/-! Concrete instances for counterexamples and witnesses. -/

/-- Abbreviation for an integer attribute. -/
def iAttr (k : String) (i : Int) : Attr := Attr.mk k (Value.vInt64 i)

/-- The handler state of the merge scenario of §8 of the spec:
`pushGroup("G")` then `attachAttrs([x = 1])`, no options. -/
def scenarioHandler : AttrHandler :=
  ((NewAttrHandler none none none).WithGroup "G").WithAttrs [iAttr "x" 1]

/-- The record of the merge scenario of §8 of the spec: attrs `[y = 2]`. -/
def scenarioRecord : Record := Record.mk 0 0 "m" 0 [iAttr "y" 2]

/-- A replace-attr callback that suppresses (returns the zero attribute for)
the built-in level key. -/
def dropLevelRA : List String → Attr → Attr :=
  fun _ a => if a.key = "level" then zeroAttr else a

/-- A handler configured with `dropLevelRA` and no frames. -/
def dropLevelHandler : AttrHandler := NewAttrHandler none (some dropLevelRA) none

/-- A record with no attributes, zero time, level 0 and message "m". -/
def plainRecord : Record := Record.mk 0 0 "m" 0 []

/-- A replace-attr callback renaming key "a" to key "b". -/
def renameRA : List String → Attr → Attr :=
  fun _ a => if a.key = "a" then Attr.mk "b" a.value else a

/-- A handler with one accumulated attribute batch `[a = 1]` and the
`renameRA` callback. -/
def renameHandler : AttrHandler :=
  (NewAttrHandler none (some renameRA) none).WithAttrs [iAttr "a" 1]

/-- A handler with one accumulated batch containing an empty attribute. -/
def emptyBatchHandler : AttrHandler :=
  (NewAttrHandler none none none).WithAttrs [zeroAttr, iAttr "a" 1]

/-- A capture callback returning a fixed error. -/
def boomCapture : Record → Option String := fun _ => some "boom"

/-- A handler whose capture callback is `boomCapture`. -/
def boomHandler : AttrHandler := NewAttrHandler none none (some boomCapture)

/-- A handler with one batch `[a = 1]` and no options. -/
def plainBatchHandler : AttrHandler :=
  (NewAttrHandler none none none).WithAttrs [iAttr "a" 1]

end Logg

namespace Logg

/-! Basic lemmas about the embedded data model. -/

@[simp] theorem Attr.key_mk (k : String) (v : Value) : (Attr.mk k v).key = k := rfl

@[simp] theorem Attr.value_mk (k : String) (v : Value) : (Attr.mk k v).value = v := rfl

theorem Attr.eta (a : Attr) : Attr.mk a.key a.value = a := by cases a; rfl

@[simp] theorem ldepth_nil : ldepth [] = 0 := rfl

@[simp] theorem ldepth_cons (a : Attr) (rest : List Attr) :
    ldepth (a :: rest) = max (vdepth a.value) (ldepth rest) := by
  cases a
  rfl

@[simp] theorem keysOf_nil : keysOf [] = [] := rfl

@[simp] theorem keysOf_cons (a : Attr) (l : List Attr) :
    keysOf (a :: l) = a.key :: keysOf l := rfl

@[simp] theorem mapGet_nil (k : String) : mapGet [] k = none := rfl

@[simp] theorem mapGet_insert (m : AttrMap) (k : String) (a : Attr) (k2 : String) :
    mapGet (mapInsert m k a) k2 = if k = k2 then some a else mapGet m k2 := rfl

theorem ldepth_le_iff {l : List Attr} {d : Nat} :
    ldepth l ≤ d ↔ ∀ a ∈ l, vdepth a.value ≤ d := by
  induction l with
  | nil => simp
  | cons a rest ih => simp [Nat.max_le, ih]

theorem vdepth_le_ldepth {a : Attr} {l : List Attr} (h : a ∈ l) :
    vdepth a.value ≤ ldepth l :=
  ldepth_le_iff.mp (Nat.le_refl _) a h

theorem ldepth_filter_le (p : Attr → Bool) (l : List Attr) :
    ldepth (l.filter p) ≤ ldepth l :=
  ldepth_le_iff.mpr (fun _ ha => vdepth_le_ldepth (List.mem_of_mem_filter ha))

/-! Lemmas about `findWithKey` and `lastWithKey`. -/

@[simp] theorem findWithKey_nil (k : String) : findWithKey [] k = none := rfl

@[simp] theorem findWithKey_cons (a : Attr) (l : List Attr) (k : String) :
    findWithKey (a :: l) k = if a.key = k then some a else findWithKey l k := rfl

theorem findWithKey_append (l1 l2 : List Attr) (k : String) :
    findWithKey (l1 ++ l2) k = (findWithKey l1 k).or (findWithKey l2 k) := by
  induction l1 with
  | nil => simp
  | cons a rest ih =>
    by_cases h : a.key = k <;> simp [h, ih]

theorem findWithKey_eq_none {l : List Attr} {k : String} :
    findWithKey l k = none ↔ ¬ k ∈ keysOf l := by
  induction l with
  | nil => simp
  | cons a rest ih =>
    by_cases h : a.key = k
    · simp [h]
    · simp only [findWithKey_cons, if_neg h, ih, keysOf_cons, List.mem_cons]
      constructor
      · rintro hn (hk | hk)
        · exact h hk.symm
        · exact hn hk
      · intro hn
        exact fun hk => hn (Or.inr hk)

theorem findWithKey_mem {l : List Attr} {k : String} {a : Attr}
    (h : findWithKey l k = some a) : a ∈ l ∧ a.key = k := by
  induction l with
  | nil => simp at h
  | cons b rest ih =>
    by_cases hb : b.key = k
    · simp [hb] at h
      subst h
      exact ⟨List.mem_cons_self _ _, hb⟩
    · simp [hb] at h
      rcases ih h with ⟨h1, h2⟩
      exact ⟨List.mem_cons_of_mem _ h1, h2⟩

@[simp] theorem lastWithKey_nil (k : String) : lastWithKey [] k = none := rfl

theorem lastWithKey_cons (a : Attr) (l : List Attr) (k : String) :
    lastWithKey (a :: l) k = (lastWithKey l k).or (if a.key = k then some a else none) := by
  unfold lastWithKey
  rw [List.reverse_cons, findWithKey_append]
  by_cases h : a.key = k <;> simp [h]

theorem lastWithKey_eq_none {l : List Attr} {k : String} :
    lastWithKey l k = none ↔ ¬ k ∈ keysOf l := by
  unfold lastWithKey
  rw [findWithKey_eq_none]
  unfold keysOf
  simp

theorem lastWithKey_mem {l : List Attr} {k : String} {a : Attr}
    (h : lastWithKey l k = some a) : a ∈ l ∧ a.key = k := by
  rcases findWithKey_mem h with ⟨h1, h2⟩
  exact ⟨List.mem_reverse.mp h1, h2⟩

/-! Lemmas about `newKeys`, the first-occurrence key order. -/

theorem mem_newKeys {k : String} : ∀ {added : List String} {l : List Attr},
    k ∈ newKeys added l ↔ k ∈ keysOf l ∧ ¬ k ∈ added := by
  intro added l
  induction l generalizing added with
  | nil => simp [newKeys]
  | cons a rest ih =>
    by_cases hc : a.key ∈ added
    · simp only [newKeys, if_pos hc, ih, keysOf_cons, List.mem_cons]
      constructor
      · rintro ⟨h1, h2⟩
        exact ⟨Or.inr h1, h2⟩
      · rintro ⟨h1 | h1, h2⟩
        · exact absurd (h1 ▸ hc) h2
        · exact ⟨h1, h2⟩
    · simp only [newKeys, if_neg hc, List.mem_cons, ih, keysOf_cons]
      constructor
      · rintro (h1 | ⟨h1, h2⟩)
        · exact ⟨Or.inl h1, h1 ▸ hc⟩
        · refine ⟨Or.inr h1, fun hk => h2 (Or.inr hk)⟩
      · rintro ⟨h1 | h1, h2⟩
        · exact Or.inl h1
        · by_cases hk : k = a.key
          · exact Or.inl hk
          · exact Or.inr ⟨h1, by simp [hk, h2]⟩

theorem nodup_newKeys : ∀ (added : List String) (l : List Attr), (newKeys added l).Nodup := by
  intro added l
  induction l generalizing added with
  | nil => simp [newKeys]
  | cons a rest ih =>
    by_cases hc : a.key ∈ added
    · rw [newKeys, if_pos hc]
      exact ih added
    · rw [newKeys, if_neg hc]
      refine List.Nodup.cons ?_ (ih _)
      intro hmem
      exact (mem_newKeys.mp hmem).2 (List.mem_cons_self _ _)

end Logg

namespace Logg

theorem newKeys_congr {added1 added2 : List String}
    (h : ∀ k, k ∈ added1 ↔ k ∈ added2) :
    ∀ l : List Attr, newKeys added1 l = newKeys added2 l := by
  intro l
  induction l generalizing added1 added2 with
  | nil => rfl
  | cons a rest ih =>
    by_cases hc : a.key ∈ added1
    · rw [newKeys, if_pos hc, newKeys, if_pos ((h a.key).mp hc)]
      exact ih h
    · rw [newKeys, if_neg hc, newKeys, if_neg (fun hm => hc ((h a.key).mpr hm))]
      refine congrArg _ (ih ?_)
      intro k
      simp only [List.mem_cons]
      exact or_congr Iff.rfl (h k)

theorem newKeys_filter (added : List String) :
    ∀ l : List Attr, newKeys added l = (newKeys [] l).filter (fun k => !added.contains k) := by
  intro l
  induction l generalizing added with
  | nil => rfl
  | cons a rest ih =>
    by_cases hc : a.key ∈ added
    · rw [newKeys, if_pos hc, newKeys, if_neg (List.not_mem_nil a.key)]
      rw [List.filter_cons]
      have hcb : (!added.contains a.key) = false := by simp [hc]
      rw [hcb]
      simp only [Bool.false_eq_true, if_false]
      rw [ih added, ih [a.key], List.filter_filter]
      refine List.filter_congr ?_
      intro k _
      by_cases hk : k = a.key
      · subst hk
        simp [hc]
      · simp [hk]
    · rw [newKeys, if_neg hc, newKeys, if_neg (List.not_mem_nil a.key)]
      rw [List.filter_cons]
      have hcb : (!added.contains a.key) = true := by simp [hc]
      rw [hcb]
      simp only [if_true]
      refine congrArg _ ?_
      rw [ih (a.key :: added), ih [a.key], List.filter_filter]
      refine List.filter_congr ?_
      intro k _
      by_cases hk : k = a.key
      · subst hk
        simp
      · simp [hk]

/-! Characterization of pass 2. -/

theorem pass2Loop_spec (m : AttrMap) : ∀ (l : List Attr) (added : List String) (out : List Attr),
    pass2Loop m added out l =
      ((newKeys added l).reverse ++ added,
       out ++ (newKeys added l).map (fun k => (mapGet m k).getD zeroAttr)) := by
  intro l
  induction l with
  | nil => intro added out; simp [pass2Loop, newKeys]
  | cons a rest ih =>
    intro added out
    by_cases hc : a.key ∈ added
    · rw [pass2Loop]
      have : added.contains a.key = true := by simp [hc]
      rw [this]
      simp only [if_true]
      rw [ih, newKeys, if_pos hc]
    · rw [pass2Loop]
      have : added.contains a.key = false := by simp [hc]
      rw [this]
      simp only [Bool.false_eq_true, if_false]
      rw [ih, newKeys, if_neg hc]
      simp [List.append_assoc]

theorem pass2_spec (m : AttrMap) (nextList prevList : List Attr) :
    pass2 m nextList prevList =
      (mergeOutKeys prevList nextList).map (fun k => (mapGet m k).getD zeroAttr) := by
  unfold pass2
  rw [pass2Loop_spec, pass2Loop_spec]
  simp only [List.append_nil, List.nil_append]
  rw [mergeOutKeys, List.map_append]
  refine congrArg _ ?_
  have h1 : newKeys ((newKeys [] nextList).reverse) prevList
      = (newKeys [] prevList).filter (fun k => !(keysOf nextList).contains k) := by
    rw [newKeys_filter ((newKeys [] nextList).reverse) prevList]
    refine List.filter_congr ?_
    intro k _
    have : ((newKeys [] nextList).reverse.contains k) = ((keysOf nextList).contains k) := by
      by_cases hk : k ∈ keysOf nextList
      · have : k ∈ (newKeys [] nextList).reverse := by
          simp only [List.mem_reverse]
          exact mem_newKeys.mpr ⟨hk, List.not_mem_nil k⟩
        simp [this, hk]
      · have : ¬ k ∈ (newKeys [] nextList).reverse := by
          simp only [List.mem_reverse]
          intro hm
          exact hk (mem_newKeys.mp hm).1
        simp [this, hk]
    rw [this]
  rw [h1]
  rfl

/-! Unfolding equations for `mergeAttrs`. -/

@[simp] theorem mergeAttrs_nil_right (p : List Attr) : mergeAttrs p [] = p := by
  cases p <;> rfl

@[simp] theorem mergeAttrs_nil_left (n : List Attr) : mergeAttrs [] n = n := by
  cases n <;> rfl

theorem mergeAttrs_cons_cons (a b : Attr) (ps ns : List Attr) :
    mergeAttrs (a :: ps) (b :: ns)
      = pass2 (mergePass1Map (a :: ps) (b :: ns)) (b :: ns) (a :: ps) := rfl

theorem mergeAttrs_of_ne_nil {p n : List Attr} (hp : p ≠ []) (hn : n ≠ []) :
    mergeAttrs p n = pass2 (mergePass1Map p n) n p := by
  cases p with
  | nil => exact absurd rfl hp
  | cons a ps =>
    cases n with
    | nil => exact absurd rfl hn
    | cons b ns => rfl

end Logg

namespace Logg

/-! Lemmas about pass 1: what the key map holds after both insert loops. -/

theorem pass1Prev_get : ∀ (l : List Attr) (m : AttrMap) (k : String),
    mapGet (pass1Prev m l) k = (lastWithKey l k).or (mapGet m k) := by
  intro l
  induction l with
  | nil => intro m k; simp [pass1Prev]
  | cons a rest ih =>
    intro m k
    rw [pass1Prev, ih, lastWithKey_cons, Option.or_assoc]
    by_cases h : a.key = k <;> simp [h]

theorem pass1Prev_get_of_last {l : List Attr} {k : String} {a : Attr}
    (h : lastWithKey l k = some a) (m : AttrMap) :
    mapGet (pass1Prev m l) k = some a := by
  rw [pass1Prev_get, h]
  rfl

theorem pass1Resolve_of_nongroup (rec : List Attr → List Attr → List Attr)
    (po : Option Attr) {a : Attr} (h : ¬ a.value.kind = Kind.group) :
    pass1Resolve rec po a = a := by
  cases po with
  | none => rfl
  | some prev =>
    rw [pass1Resolve]
    rw [if_neg (fun hand => h hand.2)]

theorem pass1Next_get_not_mem (rec : List Attr → List Attr → List Attr) :
    ∀ (l : List Attr) (m : AttrMap) (k : String), ¬ k ∈ keysOf l →
    mapGet (pass1Next rec m l) k = mapGet m k := by
  intro l
  induction l with
  | nil => intro m k _; rfl
  | cons a rest ih =>
    intro m k hk
    simp only [keysOf_cons, List.mem_cons] at hk
    push_neg at hk
    rw [pass1Next, ih _ _ hk.2, mapGet_insert, if_neg (fun he => hk.1 he.symm)]

theorem pass1Next_get_last_nongroup (rec : List Attr → List Attr → List Attr) :
    ∀ (l : List Attr) (m : AttrMap) (k : String) (a : Attr),
    lastWithKey l k = some a → ¬ a.value.kind = Kind.group →
    mapGet (pass1Next rec m l) k = some a := by
  intro l
  induction l with
  | nil => intro m k a h _; simp at h
  | cons b rest ih =>
    intro m k a hlast hng
    by_cases hk : k ∈ keysOf rest
    · have hsome : lastWithKey rest k = some a := by
        rcases Option.ne_none_iff_exists'.mp
          (fun hnone => (lastWithKey_eq_none.mp hnone) hk) with ⟨a', ha'⟩
        rw [lastWithKey_cons, ha'] at hlast
        simp at hlast
        rw [ha', hlast]
      exact ih _ _ _ hsome hng
    · have hnone : lastWithKey rest k = none := lastWithKey_eq_none.mpr hk
      rw [lastWithKey_cons, hnone] at hlast
      by_cases hb : b.key = k
      · rw [if_pos hb] at hlast
        simp at hlast
        rw [pass1Next, pass1Next_get_not_mem rec rest _ _ hk, mapGet_insert, if_pos hb]
        rw [pass1Resolve_of_nongroup rec _ (hlast ▸ hng)]
        rw [hlast]
      · rw [if_neg hb] at hlast
        simp at hlast

theorem pass1Next_get_once (rec : List Attr → List Attr → List Attr) :
    ∀ (l : List Attr) (m : AttrMap) (k : String) (a : Attr),
    (keysOf l).count k = 1 → findWithKey l k = some a →
    mapGet (pass1Next rec m l) k = some (pass1Resolve rec (mapGet m k) a) := by
  intro l
  induction l with
  | nil => intro m k a h _; simp at h
  | cons b rest ih =>
    intro m k a hcount hfind
    by_cases hb : b.key = k
    · have hrest : ¬ k ∈ keysOf rest := by
        rw [keysOf_cons, hb, List.count_cons_self] at hcount
        have : (keysOf rest).count k = 0 := by omega
        exact List.count_eq_zero.mp this
      rw [findWithKey_cons, if_pos hb] at hfind
      have hba : b = a := by
        simpa using hfind
      rw [pass1Next, pass1Next_get_not_mem rec rest _ _ hrest, mapGet_insert, if_pos hb]
      rw [hb, hba]
    · have hcount2 : (keysOf rest).count k = 1 := by
        rw [keysOf_cons, List.count_cons_of_ne (fun he => hb he.symm)] at hcount
        exact hcount
      rw [findWithKey_cons, if_neg hb] at hfind
      rw [pass1Next]
      rw [ih _ _ _ hcount2 hfind, mapGet_insert, if_neg hb]

/-- Every binding of the map carries an attribute whose key is the binding's
key. -/
def mapKeysOK (m : AttrMap) : Prop := ∀ k a, mapGet m k = some a → a.key = k

theorem mapKeysOK_nil : mapKeysOK [] := by
  intro k a h
  simp at h

theorem mapKeysOK_insert {m : AttrMap} (h : mapKeysOK m) {k : String} {a : Attr}
    (ha : a.key = k) : mapKeysOK (mapInsert m k a) := by
  intro k2 a2 h2
  rw [mapGet_insert] at h2
  by_cases he : k = k2
  · rw [if_pos he] at h2
    cases h2
    rw [ha, he]
  · rw [if_neg he] at h2
    exact h k2 a2 h2

theorem pass1Prev_keysOK : ∀ (l : List Attr) (m : AttrMap), mapKeysOK m →
    mapKeysOK (pass1Prev m l) := by
  intro l
  induction l with
  | nil => intro m h; exact h
  | cons a rest ih =>
    intro m h
    exact ih _ (mapKeysOK_insert h rfl)

theorem pass1Resolve_key (rec : List Attr → List Attr → List Attr) {m : AttrMap}
    (hm : mapKeysOK m) (a : Attr) :
    (pass1Resolve rec (mapGet m a.key) a).key = a.key := by
  rcases hget : mapGet m a.key with _ | prev
  · rfl
  · have hpk : prev.key = a.key := hm _ _ hget
    by_cases hc : prev.value.kind = Kind.group ∧ a.value.kind = Kind.group
    · simp only [pass1Resolve, mergeGroupsCore, if_pos hc, SlogGroupAttrs, Attr.key_mk]
      exact hpk
    · simp only [pass1Resolve, if_neg hc]

theorem pass1Next_keysOK (rec : List Attr → List Attr → List Attr) :
    ∀ (l : List Attr) (m : AttrMap), mapKeysOK m → mapKeysOK (pass1Next rec m l) := by
  intro l
  induction l with
  | nil => intro m h; exact h
  | cons a rest ih =>
    intro m h
    exact ih _ (mapKeysOK_insert h (pass1Resolve_key rec h a))

theorem pass1Next_isSome_of_mem (rec : List Attr → List Attr → List Attr) :
    ∀ (l : List Attr) (m : AttrMap) (k : String), k ∈ keysOf l →
    (mapGet (pass1Next rec m l) k).isSome := by
  intro l
  induction l with
  | nil => intro m k h; simp at h
  | cons b rest ih =>
    intro m k hk
    by_cases hr : k ∈ keysOf rest
    · exact ih _ _ hr
    · have hb : b.key = k := by
        rcases List.mem_cons.mp hk with h | h
        · exact h.symm
        · exact absurd h hr
      rw [pass1Next, pass1Next_get_not_mem rec rest _ _ hr, mapGet_insert, if_pos hb]
      rfl

theorem pass1Next_isSome_of_base (rec : List Attr → List Attr → List Attr) :
    ∀ (l : List Attr) (m : AttrMap) (k : String), (mapGet m k).isSome →
    (mapGet (pass1Next rec m l) k).isSome := by
  intro l
  induction l with
  | nil => intro m k h; exact h
  | cons b rest ih =>
    intro m k hk
    refine ih _ _ ?_
    rw [mapGet_insert]
    by_cases hb : b.key = k
    · rw [if_pos hb]; rfl
    · rw [if_neg hb]; exact hk

theorem findWithKey_map_of_mem {ks : List String} {f : String → Attr}
    (hf : ∀ x ∈ ks, (f x).key = x) {k : String} (hk : k ∈ ks) :
    findWithKey (ks.map f) k = some (f k) := by
  induction ks with
  | nil => simp at hk
  | cons x rest ih =>
    rw [List.map_cons, findWithKey_cons]
    by_cases hx : x = k
    · rw [if_pos (by rw [hf x (List.mem_cons_self _ _), hx])]
      rw [hx]
    · rw [if_neg (by rw [hf x (List.mem_cons_self _ _)]; exact hx)]
      refine ih (fun y hy => hf y (List.mem_cons_of_mem _ hy)) ?_
      rcases List.mem_cons.mp hk with h | h
      · exact absurd h.symm hx
      · exact h

end Logg

namespace Logg

/-! Assembly lemmas for the merge contract. -/

theorem lastWithKey_isSome_of_mem {l : List Attr} {k : String} (h : k ∈ keysOf l) :
    (lastWithKey l k).isSome := by
  rcases hv : lastWithKey l k with _ | a
  · exact absurd (lastWithKey_eq_none.mp hv) (not_not.mpr h)
  · rfl

theorem mergePass1Map_keysOK (p n : List Attr) : mapKeysOK (mergePass1Map p n) :=
  pass1Next_keysOK _ _ _ (pass1Prev_keysOK _ _ mapKeysOK_nil)

theorem mergePass1Map_isSome {p n : List Attr} {k : String}
    (h : k ∈ keysOf p ∨ k ∈ keysOf n) : (mapGet (mergePass1Map p n) k).isSome := by
  rcases h with h | h
  · refine pass1Next_isSome_of_base _ _ _ _ ?_
    rw [pass1Prev_get]
    rcases Option.isSome_iff_exists.mp (lastWithKey_isSome_of_mem h) with ⟨a, ha⟩
    rw [ha]
    rfl
  · exact pass1Next_isSome_of_mem _ _ _ _ h

theorem mem_mergeOutKeys {p n : List Attr} {k : String} :
    k ∈ mergeOutKeys p n ↔ k ∈ keysOf n ∨ k ∈ keysOf p := by
  rw [mergeOutKeys, List.mem_append]
  constructor
  · rintro (h | h)
    · exact Or.inl (mem_newKeys.mp h).1
    · exact Or.inr (mem_newKeys.mp (List.mem_of_mem_filter h)).1
  · rintro (h | h)
    · exact Or.inl (mem_newKeys.mpr ⟨h, List.not_mem_nil k⟩)
    · by_cases hn : k ∈ keysOf n
      · exact Or.inl (mem_newKeys.mpr ⟨hn, List.not_mem_nil k⟩)
      · refine Or.inr (List.mem_filter.mpr ⟨mem_newKeys.mpr ⟨h, List.not_mem_nil k⟩, ?_⟩)
        simp [hn]

theorem mergeOutKeys_resolve_key {p n : List Attr} {k : String}
    (h : k ∈ mergeOutKeys p n) :
    ((mapGet (mergePass1Map p n) k).getD zeroAttr).key = k := by
  rcases Option.isSome_iff_exists.mp
    (mergePass1Map_isSome (Or.symm (mem_mergeOutKeys.mp h))) with ⟨a, ha⟩
  rw [ha]
  exact mergePass1Map_keysOK p n k a ha

theorem mergeAttrs_keys {p n : List Attr} (hp : p ≠ []) (hn : n ≠ []) :
    (mergeAttrs p n).map Attr.key = mergeOutKeys p n := by
  rw [mergeAttrs_of_ne_nil hp hn, pass2_spec, List.map_map]
  have : ∀ k ∈ mergeOutKeys p n,
      (Attr.key ∘ fun k2 => (mapGet (mergePass1Map p n) k2).getD zeroAttr) k = id k :=
    fun k hk => mergeOutKeys_resolve_key hk
  rw [List.map_congr_left this, List.map_id]

theorem nodup_mergeOutKeys (p n : List Attr) : (mergeOutKeys p n).Nodup := by
  rw [mergeOutKeys, List.nodup_append]
  refine ⟨nodup_newKeys _ _, List.Nodup.filter _ (nodup_newKeys _ _), ?_⟩
  intro k hk1 hk2
  have h1 : k ∈ keysOf n := (mem_newKeys.mp hk1).1
  have h2 := (List.mem_filter.mp hk2).2
  simp [h1] at h2

theorem mergeAttrs_find_last_nongroup {p n : List Attr} {k : String} {a : Attr}
    (hkp : k ∈ keysOf p) (hlast : lastWithKey n k = some a)
    (hng : ¬ a.value.kind = Kind.group) :
    findWithKey (mergeAttrs p n) k = some a := by
  have hp : p ≠ [] := by
    intro he
    rw [he] at hkp
    simp at hkp
  have hkn : k ∈ keysOf n := by
    rcases lastWithKey_mem hlast with ⟨hmem, hkey⟩
    exact hkey ▸ List.mem_map_of_mem Attr.key hmem
  have hn : n ≠ [] := by
    intro he
    rw [he] at hkn
    simp at hkn
  rw [mergeAttrs_of_ne_nil hp hn, pass2_spec]
  rw [findWithKey_map_of_mem (fun x hx => mergeOutKeys_resolve_key hx)
    (mem_mergeOutKeys.mpr (Or.inl hkn))]
  unfold mergePass1Map
  rw [pass1Next_get_last_nongroup _ _ _ _ _ hlast hng]
  rfl

end Logg

namespace Logg

/-! Fuel adequacy: `mergeAttrsF` is independent of the fuel as soon as the
fuel exceeds the group-nesting depth of the inputs, and its output depth
never exceeds the input depth.  These lemmas let the group-merge recursion be
expressed with `mergeAttrs` itself. -/

theorem Value.eq_vGroup_of_kind {v : Value} (h : v.kind = Kind.group) :
    v = Value.vGroup v.group := by
  cases v <;> simp_all [Value.kind, Value.group]

theorem vdepth_vGroup (l : List Attr) : vdepth (Value.vGroup l) = ldepth l + 1 := rfl

theorem vdepth_of_kind_group {v : Value} (h : v.kind = Kind.group) :
    vdepth v = ldepth v.group + 1 := by
  rw [Value.eq_vGroup_of_kind h, vdepth_vGroup]
  rw [← Value.eq_vGroup_of_kind h]

theorem ldepth_pass1Resolve_le (rec : List Attr → List Attr → List Attr) (d : Nat)
    (hrec : ∀ gp gn, ldepth (rec gp gn) ≤ max (ldepth gp) (ldepth gn))
    {po : Option Attr} {a : Attr}
    (hpo : ∀ prev, po = some prev → vdepth prev.value ≤ d)
    (ha : vdepth a.value ≤ d) :
    vdepth (pass1Resolve rec po a).value ≤ d := by
  cases po with
  | none => exact ha
  | some prev =>
    by_cases hc : prev.value.kind = Kind.group ∧ a.value.kind = Kind.group
    · simp only [pass1Resolve, mergeGroupsCore, if_pos hc]
      have hprev : ldepth prev.value.group + 1 ≤ d := by
        rw [← vdepth_of_kind_group hc.1]
        exact hpo prev rfl
      have hnext : ldepth a.value.group + 1 ≤ d := by
        rw [← vdepth_of_kind_group hc.2]
        exact ha
      simp only [SlogGroupAttrs, GroupValue, Attr.value_mk, vdepth_vGroup]
      have hfil := ldepth_filter_le (fun x => !x.value.isEmptyGroup)
        (rec prev.value.group a.value.group)
      have := hrec prev.value.group a.value.group
      omega
    · simp only [pass1Resolve, if_neg hc]
      exact ha

theorem pass1Prev_depthLE {d : Nat} : ∀ (l : List Attr) (m : AttrMap),
    mapDepthLE m d → ldepth l ≤ d → mapDepthLE (pass1Prev m l) d := by
  intro l
  induction l with
  | nil => intro m hm _; exact hm
  | cons a rest ih =>
    intro m hm hl
    rw [ldepth_cons, Nat.max_le] at hl
    refine ih _ ?_ hl.2
    intro k2 a2 h2
    rw [mapGet_insert] at h2
    by_cases he : a.key = k2
    · rw [if_pos he] at h2
      cases h2
      exact hl.1
    · rw [if_neg he] at h2
      exact hm _ _ h2

theorem pass1Next_depthLE (rec : List Attr → List Attr → List Attr) {d : Nat}
    (hrec : ∀ gp gn, ldepth (rec gp gn) ≤ max (ldepth gp) (ldepth gn)) :
    ∀ (l : List Attr) (m : AttrMap),
    mapDepthLE m d → ldepth l ≤ d → mapDepthLE (pass1Next rec m l) d := by
  intro l
  induction l with
  | nil => intro m hm _; exact hm
  | cons a rest ih =>
    intro m hm hl
    rw [ldepth_cons, Nat.max_le] at hl
    rw [pass1Next]
    refine ih _ ?_ hl.2
    intro k2 a2 h2
    rw [mapGet_insert] at h2
    by_cases he : a.key = k2
    · rw [if_pos he] at h2
      cases h2
      exact ldepth_pass1Resolve_le rec d hrec (fun prev hp => hm _ _ hp) hl.1
    · rw [if_neg he] at h2
      exact hm _ _ h2

theorem pass2_depthLE {m : AttrMap} {d : Nat} (hm : mapDepthLE m d)
    (nextList prevList : List Attr) : ldepth (pass2 m nextList prevList) ≤ d := by
  rw [pass2_spec]
  refine ldepth_le_iff.mpr ?_
  intro a ha
  rcases List.mem_map.mp ha with ⟨k, _, hk⟩
  rcases hget : mapGet m k with _ | a2
  · rw [← hk, hget]
    exact Nat.zero_le d
  · rw [← hk, hget]
    exact hm _ _ hget

theorem mergeAttrsF_ldepth : ∀ (fuel : Nat) (p n : List Attr),
    ldepth (mergeAttrsF fuel p n) ≤ max (ldepth p) (ldepth n) := by
  intro fuel
  induction fuel with
  | zero => intro p n; exact Nat.zero_le _
  | succ fuel ih =>
    intro p n
    cases p with
    | nil =>
      cases n with
      | nil => exact Nat.zero_le _
      | cons b ns => exact Nat.le_max_right _ _
    | cons a ps =>
      cases n with
      | nil => exact Nat.le_max_left _ _
      | cons b ns =>
        show ldepth (pass2 (pass1Next (mergeAttrsF fuel)
          (pass1Prev [] (a :: ps)) (b :: ns)) (b :: ns) (a :: ps)) ≤ _
        refine pass2_depthLE ?_ _ _
        refine pass1Next_depthLE _ ih _ _ ?_ (Nat.le_max_right _ _)
        refine pass1Prev_depthLE _ _ ?_ (Nat.le_max_left _ _)
        intro k a2 h
        simp at h

theorem pass1Resolve_congr (rec1 rec2 : List Attr → List Attr → List Attr) (d : Nat)
    (h12 : ∀ gp gn, ldepth gp < d → ldepth gn < d → rec1 gp gn = rec2 gp gn)
    {po : Option Attr} {a : Attr}
    (hpo : ∀ prev, po = some prev → vdepth prev.value ≤ d)
    (ha : vdepth a.value ≤ d) :
    pass1Resolve rec1 po a = pass1Resolve rec2 po a := by
  cases po with
  | none => rfl
  | some prev =>
    by_cases hc : prev.value.kind = Kind.group ∧ a.value.kind = Kind.group
    · simp only [pass1Resolve, mergeGroupsCore, if_pos hc]
      have hprev : ldepth prev.value.group < d := by
        have := hpo prev rfl
        rw [vdepth_of_kind_group hc.1] at this
        omega
      have hnext : ldepth a.value.group < d := by
        rw [vdepth_of_kind_group hc.2] at ha
        omega
      rw [h12 _ _ hprev hnext]
    · simp only [pass1Resolve, if_neg hc]

theorem pass1Next_congr (rec1 rec2 : List Attr → List Attr → List Attr) (d : Nat)
    (h12 : ∀ gp gn, ldepth gp < d → ldepth gn < d → rec1 gp gn = rec2 gp gn)
    (hrec1 : ∀ gp gn, ldepth (rec1 gp gn) ≤ max (ldepth gp) (ldepth gn)) :
    ∀ (l : List Attr) (m : AttrMap),
    mapDepthLE m d → ldepth l ≤ d → pass1Next rec1 m l = pass1Next rec2 m l := by
  intro l
  induction l with
  | nil => intro m _ _; rfl
  | cons a rest ih =>
    intro m hm hl
    rw [ldepth_cons, Nat.max_le] at hl
    rw [pass1Next, pass1Next]
    rw [← pass1Resolve_congr rec1 rec2 d h12 (fun prev hp => hm _ _ hp) hl.1]
    refine ih _ ?_ hl.2
    intro k2 a2 h2
    rw [mapGet_insert] at h2
    by_cases he : a.key = k2
    · rw [if_pos he] at h2
      cases h2
      exact ldepth_pass1Resolve_le rec1 d hrec1 (fun prev hp => hm _ _ hp) hl.1
    · rw [if_neg he] at h2
      exact hm _ _ h2

theorem mergeAttrsF_stable : ∀ (f1 f2 : Nat) (p n : List Attr),
    mergeFuel p n < f1 → mergeFuel p n < f2 →
    mergeAttrsF f1 p n = mergeAttrsF f2 p n := by
  intro f1
  induction f1 with
  | zero => intro f2 p n h1 _; exact absurd h1 (Nat.not_lt_zero _)
  | succ f1 ih =>
    intro f2 p n h1 h2
    cases f2 with
    | zero => exact absurd h2 (Nat.not_lt_zero _)
    | succ f2 =>
      cases p with
      | nil => cases n <;> rfl
      | cons a ps =>
        cases n with
        | nil => rfl
        | cons b ns =>
          show pass2 (pass1Next (mergeAttrsF f1) (pass1Prev [] (a :: ps)) (b :: ns)) _ _
            = pass2 (pass1Next (mergeAttrsF f2) (pass1Prev [] (a :: ps)) (b :: ns)) _ _
          have hmap : pass1Next (mergeAttrsF f1) (pass1Prev [] (a :: ps)) (b :: ns)
              = pass1Next (mergeAttrsF f2) (pass1Prev [] (a :: ps)) (b :: ns) := by
            refine pass1Next_congr _ _ (mergeFuel (a :: ps) (b :: ns)) ?_
              (mergeAttrsF_ldepth f1) _ _ ?_ (Nat.le_max_right _ _)
            · intro gp gn hgp hgn
              refine ih f2 gp gn ?_ ?_
              · have : mergeFuel gp gn < mergeFuel (a :: ps) (b :: ns) :=
                  Nat.max_lt.mpr ⟨hgp, hgn⟩
                omega
              · have : mergeFuel gp gn < mergeFuel (a :: ps) (b :: ns) :=
                  Nat.max_lt.mpr ⟨hgp, hgn⟩
                omega
            · refine pass1Prev_depthLE _ _ ?_ (Nat.le_max_left _ _)
              intro k a2 h
              simp at h
          rw [hmap]

theorem mergeAttrsF_eq_mergeAttrs {f : Nat} {p n : List Attr}
    (h : mergeFuel p n < f) : mergeAttrsF f p n = mergeAttrs p n :=
  mergeAttrsF_stable f (mergeFuel p n + 1) p n h (Nat.lt_succ_self _)

end Logg

namespace Logg

/-! The value stored at a colliding key. -/

theorem ne_nil_of_mem_keys {l : List Attr} {k : String} (h : k ∈ keysOf l) : l ≠ [] := by
  intro he
  rw [he] at h
  simp at h

theorem mergeAttrs_find_resolve {p n : List Attr} {k : String} {ap an : Attr}
    (hlastp : lastWithKey p k = some ap) (hfind : findWithKey n k = some an)
    (honce : (keysOf n).count k = 1) :
    findWithKey (mergeAttrs p n) k
      = some (pass1Resolve (mergeAttrsF (mergeFuel p n)) (some ap) an) := by
  have hkp : k ∈ keysOf p := by
    rcases lastWithKey_mem hlastp with ⟨hmem, hkey⟩
    exact hkey ▸ List.mem_map_of_mem Attr.key hmem
  have hkn : k ∈ keysOf n := by
    rcases findWithKey_mem hfind with ⟨hmem, hkey⟩
    exact hkey ▸ List.mem_map_of_mem Attr.key hmem
  rw [mergeAttrs_of_ne_nil (ne_nil_of_mem_keys hkp) (ne_nil_of_mem_keys hkn), pass2_spec]
  rw [findWithKey_map_of_mem (fun x hx => mergeOutKeys_resolve_key hx)
    (mem_mergeOutKeys.mpr (Or.inl hkn))]
  unfold mergePass1Map
  rw [pass1Next_get_once _ _ _ _ _ honce hfind,
    pass1Prev_get_of_last hlastp]
  rfl

theorem mergeAttrs_find_group_merge {p n : List Attr} {k : String} {ap an : Attr}
    {gp gn : List Attr}
    (hlastp : lastWithKey p k = some ap) (hfind : findWithKey n k = some an)
    (honce : (keysOf n).count k = 1)
    (hgp : ap.value = Value.vGroup gp) (hgn : an.value = Value.vGroup gn) :
    findWithKey (mergeAttrs p n) k = some (SlogGroupAttrs k (mergeAttrs gp gn)) := by
  rw [mergeAttrs_find_resolve hlastp hfind honce]
  have hkgp : ap.value.kind = Kind.group := by rw [hgp]; rfl
  have hkgn : an.value.kind = Kind.group := by rw [hgn]; rfl
  simp only [pass1Resolve, mergeGroupsCore, if_pos (And.intro hkgp hkgn)]
  have hap : ap.value.group = gp := by rw [hgp]; rfl
  have han : an.value.group = gn := by rw [hgn]; rfl
  have hkey : ap.key = k := (lastWithKey_mem hlastp).2
  rw [hap, han, hkey]
  have hfuel : mergeFuel gp gn < mergeFuel p n := by
    have hdp : vdepth ap.value ≤ ldepth p := vdepth_le_ldepth (lastWithKey_mem hlastp).1
    have hdn : vdepth an.value ≤ ldepth n := vdepth_le_ldepth (findWithKey_mem hfind).1
    rw [hgp, vdepth_vGroup] at hdp
    rw [hgn, vdepth_vGroup] at hdn
    unfold mergeFuel
    have h1 := Nat.le_max_left (ldepth p) (ldepth n)
    have h2 := Nat.le_max_right (ldepth p) (ldepth n)
    refine Nat.max_lt.mpr ⟨?_, ?_⟩ <;> omega
  rw [mergeAttrsF_eq_mergeAttrs hfuel]

theorem mergeAttrs_find_overwrite {p n : List Attr} {k : String} {ap an : Attr}
    (hlastp : lastWithKey p k = some ap) (hfind : findWithKey n k = some an)
    (honce : (keysOf n).count k = 1)
    (hnb : ¬ (ap.value.kind = Kind.group ∧ an.value.kind = Kind.group)) :
    findWithKey (mergeAttrs p n) k = some an := by
  rw [mergeAttrs_find_resolve hlastp hfind honce]
  simp only [pass1Resolve, if_neg hnb]

end Logg

namespace Logg

/-- C1: `mergeAttrs` (the spec's `mergeAttributeLists`) satisfies its stated
contract.  If exactly one input is empty the other is returned; if both are
empty the result is the (fresh) empty list.  Otherwise the output is the
pass-1 resolved attribute for each key of `mergeOutKeys p n` in order — the
keys of `nextList` in first-occurrence order followed by the keys unique to
`prevList` in their first-occurrence order — and for a key present in both
lists whose last `nextList` value is not a group, the output attribute at
that key is exactly `nextList`'s last attribute for it. -/
theorem mergeAttrs_contract (p n : List Attr) :
    mergeAttrs p [] = p
    ∧ mergeAttrs [] n = n
    ∧ mergeAttrs [] ([] : List Attr) = []
    ∧ (p ≠ [] → n ≠ [] →
        mergeAttrs p n
          = (mergeOutKeys p n).map (fun k => (mapGet (mergePass1Map p n) k).getD zeroAttr)
        ∧ (mergeAttrs p n).map Attr.key = mergeOutKeys p n)
    ∧ (∀ k a, k ∈ keysOf p → lastWithKey n k = some a → ¬ a.value.kind = Kind.group →
        findWithKey (mergeAttrs p n) k = some a) := by
  refine ⟨mergeAttrs_nil_right p, mergeAttrs_nil_left n, rfl, ?_, ?_⟩
  · intro hp hn
    exact ⟨by rw [mergeAttrs_of_ne_nil hp hn, pass2_spec], mergeAttrs_keys hp hn⟩
  · intro k a hkp hlast hng
    exact mergeAttrs_find_last_nongroup hkp hlast hng

/-- Witness for C1 at concrete inputs: the key order and the last-value
precedence, evaluated on explicit lists. -/
theorem mergeAttrs_contract_witness :
    (mergeAttrs [iAttr "k" 7, iAttr "a" 1] [iAttr "k" 2, iAttr "k" 3]).map Attr.key
        = mergeOutKeys [iAttr "k" 7, iAttr "a" 1] [iAttr "k" 2, iAttr "k" 3]
    ∧ findWithKey (mergeAttrs [iAttr "k" 7, iAttr "a" 1] [iAttr "k" 2, iAttr "k" 3]) "k"
        = some (iAttr "k" 3) :=
  ⟨((mergeAttrs_contract [iAttr "k" 7, iAttr "a" 1] [iAttr "k" 2, iAttr "k" 3]).2.2.2.1
      (by simp) (by simp)).2,
   (mergeAttrs_contract [iAttr "k" 7, iAttr "a" 1] [iAttr "k" 2, iAttr "k" 3]).2.2.2.2
      "k" (iAttr "k" 3) (by decide) (by rfl) (by decide)⟩

/-- C2 counterexample: when one input list is empty, `mergeAttrs` returns the
other list unchanged, so a duplicated key in it survives; the claim's "for
every pair ... including the cases where A or B is empty or contains
internally duplicated keys" is false on this input. -/
theorem mergeAttrs_keyUnique_counterexample :
    ¬ ((mergeAttrs [iAttr "k" 1, iAttr "k" 2] []).map Attr.key).Nodup := by
  decide

/-- C2 amended: when both inputs are non-empty, the output of `mergeAttrs`
contains each key at most once (when exactly one input is empty the other
list is returned as is, so duplicates inside it survive). -/
theorem mergeAttrs_keyUnique (p n : List Attr) (hp : p ≠ []) (hn : n ≠ []) :
    ((mergeAttrs p n).map Attr.key).Nodup := by
  rw [mergeAttrs_keys hp hn]
  exact nodup_mergeOutKeys p n

/-- Witness for the amended C2 at concrete inputs. -/
theorem mergeAttrs_keyUnique_witness :
    ((mergeAttrs [iAttr "k" 1, iAttr "k" 2] [iAttr "k" 9]).map Attr.key).Nodup :=
  mergeAttrs_keyUnique [iAttr "k" 1, iAttr "k" 2] [iAttr "k" 9] (by simp) (by simp)

/-- C3: when a key occurs in both inputs and both mapped values are groups,
the output maps the key to a group attribute built by recursively merging the
two groups' children (`mergeGroups` wraps with `SlogGroupAttrs`); any other
kind collision is a plain overwrite by the `nextList` value; and concretely
`mergeAttrs [(g, Group [x=1])] [(g, Group [y=2])] = [(g, Group [y=2, x=1])]`. -/
theorem mergeAttrs_group_collision :
    (∀ (p n : List Attr) (k : String) (ap an : Attr) (gp gn : List Attr),
      lastWithKey p k = some ap → findWithKey n k = some an →
      (keysOf n).count k = 1 →
      ap.value = Value.vGroup gp → an.value = Value.vGroup gn →
      findWithKey (mergeAttrs p n) k = some (SlogGroupAttrs k (mergeAttrs gp gn)))
    ∧ (∀ (p n : List Attr) (k : String) (ap an : Attr),
      lastWithKey p k = some ap → findWithKey n k = some an →
      (keysOf n).count k = 1 →
      ¬ (ap.value.kind = Kind.group ∧ an.value.kind = Kind.group) →
      findWithKey (mergeAttrs p n) k = some an)
    ∧ mergeAttrs [Attr.mk "g" (Value.vGroup [iAttr "x" 1])]
        [Attr.mk "g" (Value.vGroup [iAttr "y" 2])]
      = [Attr.mk "g" (Value.vGroup [iAttr "y" 2, iAttr "x" 1])] := by
  refine ⟨?_, ?_, rfl⟩
  · intro p n k ap an gp gn h1 h2 h3 h4 h5
    exact mergeAttrs_find_group_merge h1 h2 h3 h4 h5
  · intro p n k ap an h1 h2 h3 h4
    exact mergeAttrs_find_overwrite h1 h2 h3 h4

/-- Witness for C3: the group-merge branch and the overwrite branch applied
at concrete inputs. -/
theorem mergeAttrs_group_collision_witness :
    findWithKey (mergeAttrs [Attr.mk "g" (Value.vGroup [iAttr "x" 1])]
        [Attr.mk "g" (Value.vGroup [iAttr "y" 2])]) "g"
      = some (SlogGroupAttrs "g" (mergeAttrs [iAttr "x" 1] [iAttr "y" 2]))
    ∧ findWithKey (mergeAttrs [iAttr "g" 1] [Attr.mk "g" (Value.vGroup [iAttr "y" 2])]) "g"
      = some (Attr.mk "g" (Value.vGroup [iAttr "y" 2])) :=
  ⟨mergeAttrs_group_collision.1 [Attr.mk "g" (Value.vGroup [iAttr "x" 1])]
      [Attr.mk "g" (Value.vGroup [iAttr "y" 2])] "g"
      (Attr.mk "g" (Value.vGroup [iAttr "x" 1])) (Attr.mk "g" (Value.vGroup [iAttr "y" 2]))
      [iAttr "x" 1] [iAttr "y" 2]
      (by rfl) (by rfl) (by decide) rfl rfl,
   mergeAttrs_group_collision.2.1 [iAttr "g" 1] [Attr.mk "g" (Value.vGroup [iAttr "y" 2])]
      "g" (iAttr "g" 1) (Attr.mk "g" (Value.vGroup [iAttr "y" 2]))
      (by rfl) (by rfl) (by decide) (by decide)⟩

end Logg

namespace Logg

/-! Lemmas about the frame accumulator and the record builder. -/

theorem trim_append_trailing (l : List GroupOrAttrs) :
    trimTrailingGroups l ++ trailingGroups l = l := by
  unfold trimTrailingGroups trailingGroups
  rw [← List.reverse_append, List.takeWhile_append_dropWhile, List.reverse_reverse]

theorem trim_append_groupFrames (l : List GroupOrAttrs) {names : List String}
    (hne : ∀ nm ∈ names, ¬ nm = "") :
    trimTrailingGroups (l ++ groupFrames names) = trimTrailingGroups l := by
  unfold trimTrailingGroups
  rw [List.reverse_append, List.dropWhile_append_of_pos]
  intro g hg
  rcases List.mem_map.mp (List.mem_reverse.mp hg) with ⟨nm, hnm, hgnm⟩
  rw [← hgnm]
  simp only [isGroupFrame, bne_iff_ne, ne_eq]
  exact hne nm hnm

theorem walkGoas_none_frames : ∀ (l : List GroupOrAttrs) (gp : List String) (out : List Attr),
    (walkGoas none gp out l).2.2 = l := by
  intro l
  induction l with
  | nil => intro gp out; rfl
  | cons goa rest ih =>
    intro gp out
    by_cases hg : goa.groupName ≠ ""
    · simp only [walkGoas, if_pos hg, ih]
    · simp only [walkGoas, if_neg hg, Option.isSome_none, Bool.false_eq_true, and_false,
        if_false, ih]

theorem withGroup_replaceAttr (h : AttrHandler) (nm : String) :
    (h.WithGroup nm).replaceAttr = h.replaceAttr := by
  unfold AttrHandler.WithGroup
  by_cases he : nm = "" <;> simp [he]

theorem foldl_WithGroup_fields (names : List String) :
    ∀ (h : AttrHandler), (∀ nm ∈ names, ¬ nm = "") →
    (names.foldl AttrHandler.WithGroup h).groupsOrAttrs.data
        = h.groupsOrAttrs.data ++ groupFrames names
    ∧ (names.foldl AttrHandler.WithGroup h).replaceAttr = h.replaceAttr := by
  induction names with
  | nil => intro h _; simp [groupFrames]
  | cons nm rest ih =>
    intro h hne
    have hnm : ¬ nm = "" := hne nm (List.mem_cons_self _ _)
    have hrest : ∀ x ∈ rest, ¬ x = "" := fun x hx => hne x (List.mem_cons_of_mem _ hx)
    rw [List.foldl_cons]
    rcases ih (h.WithGroup nm) hrest with ⟨h1, h2⟩
    refine ⟨?_, ?_⟩
    · rw [h1]
      have : (h.WithGroup nm).groupsOrAttrs.data
          = h.groupsOrAttrs.data ++ [GroupOrAttrs.mk nm []] := by
        unfold AttrHandler.WithGroup
        rw [if_neg hnm]
        rfl
      rw [this]
      simp [groupFrames, List.append_assoc]
    · rw [h2, withGroup_replaceAttr]

end Logg

namespace Logg

/-- Specification-side description of the in-place frame updates performed by
one `Handle` call: for every attribute-batch frame before the first
group-push frame, when `replaceAttr` is configured the stored batch is
overwritten with the `replaceAttr`-rewritten attributes (empty group path);
the first group-push frame and everything after it are untouched. -/
def mutatedFrames (ra : Option (List String → Attr → Attr)) : List GroupOrAttrs → List GroupOrAttrs
  | [] => []
  | goa :: rest =>
    if goa.groupName ≠ "" then goa :: rest
    else (if ra.isSome then GroupOrAttrs.mk goa.groupName (applyRAList ra [] goa.attrs) else goa)
      :: mutatedFrames ra rest

theorem mutatedFrames_none : ∀ l : List GroupOrAttrs, mutatedFrames none l = l := by
  intro l
  induction l with
  | nil => rfl
  | cons goa rest ih =>
    by_cases hg : goa.groupName ≠ ""
    · rw [mutatedFrames, if_pos hg]
    · rw [mutatedFrames, if_neg hg]
      simp only [Option.isSome_none, Bool.false_eq_true, if_false, ih]

theorem mutatedFrames_all_groups {ra : Option (List String → Attr → Attr)}
    {l : List GroupOrAttrs} (h : ∀ g ∈ l, isGroupFrame g) : mutatedFrames ra l = l := by
  cases l with
  | nil => rfl
  | cons goa rest =>
    have := h goa (List.mem_cons_self _ _)
    rw [isGroupFrame, bne_iff_ne] at this
    rw [mutatedFrames, if_pos this]

theorem mutatedFrames_append_groups {ra : Option (List String → Attr → Attr)}
    {l2 : List GroupOrAttrs} (h2 : ∀ g ∈ l2, isGroupFrame g) :
    ∀ l1 : List GroupOrAttrs, mutatedFrames ra (l1 ++ l2) = mutatedFrames ra l1 ++ l2 := by
  intro l1
  induction l1 with
  | nil =>
    simp only [List.nil_append, mutatedFrames]
    exact mutatedFrames_all_groups h2
  | cons goa rest ih =>
    by_cases hg : goa.groupName ≠ ""
    · rw [List.cons_append, mutatedFrames, if_pos hg, mutatedFrames, if_pos hg,
        List.cons_append]
    · rw [List.cons_append, mutatedFrames, if_neg hg, mutatedFrames, if_neg hg, ih,
        List.cons_append]

theorem walkGoas_frames_of_gp_ne (ra : Option (List String → Attr → Attr)) :
    ∀ (l : List GroupOrAttrs) (gp : List String) (out : List Attr), ¬ gp = [] →
    (walkGoas ra gp out l).2.2 = l := by
  intro l
  induction l with
  | nil => intro gp out _; rfl
  | cons goa rest ih =>
    intro gp out hgp
    by_cases hg : goa.groupName ≠ ""
    · simp only [walkGoas, if_pos hg]
      rw [ih _ _ (by simp)]
    · have hemp : gp.isEmpty = false := by
        cases gp with
        | nil => exact absurd rfl hgp
        | cons x xs => rfl
      simp only [walkGoas, if_neg hg, hemp, Bool.false_eq_true, false_and, if_false]
      rw [ih _ _ hgp]

theorem walkGoas_frames_nil_gp (ra : Option (List String → Attr → Attr)) :
    ∀ (l : List GroupOrAttrs) (out : List Attr),
    (walkGoas ra [] out l).2.2 = mutatedFrames ra l := by
  intro l
  induction l with
  | nil => intro out; rfl
  | cons goa rest ih =>
    intro out
    by_cases hg : goa.groupName ≠ ""
    · simp only [walkGoas, if_pos hg, mutatedFrames]
      rw [walkGoas_frames_of_gp_ne ra rest _ _ (by simp)]
    · simp only [walkGoas, if_neg hg, mutatedFrames, List.isEmpty_nil, true_and]
      rw [ih]
      rcases ra with _ | f
      · simp
      · simp [applyGroupsToAttrs]

theorem trailingGroups_all_groups (l : List GroupOrAttrs) :
    ∀ g ∈ trailingGroups l, isGroupFrame g := by
  intro g hg
  rw [trailingGroups, List.mem_reverse] at hg
  exact List.mem_takeWhile_imp hg

theorem handleUpdatedGoas_eq (h : AttrHandler) (rec : Record) :
    h.handleUpdatedGoas rec = mutatedFrames h.replaceAttr h.groupsOrAttrs.data := by
  unfold AttrHandler.handleUpdatedGoas AttrHandler.buildRecordAttrs
  show (walkGoas _ [] _ _).2.2 ++ _ = _
  rw [walkGoas_frames_nil_gp]
  unfold walkedFrames untouchedFrames
  by_cases hlen : rec.attrs.length < 1
  · rw [if_pos hlen, if_pos hlen]
    conv =>
      rhs
      rw [← trim_append_trailing h.groupsOrAttrs.data]
    rw [mutatedFrames_append_groups (trailingGroups_all_groups h.groupsOrAttrs.data)]
  · rw [if_neg hlen, if_neg hlen, List.append_nil]

end Logg

namespace Logg

/-- C4 counterexample: in the scenario `pushGroup("G")`, `attachAttrs([x=1])`,
record attrs `[y=2]`, the final output's group `G` contains `y=2` first and
`x=1` second — the record's own keys win ordering priority per the merge
rule — not `x=1` then `y=2` as the claim states. -/
theorem scenario_order_counterexample :
    findWithKey (scenarioHandler.handleCloned scenarioRecord).attrs "G"
      = some (Attr.mk "G" (Value.vGroup [iAttr "y" 2, iAttr "x" 1]))
    ∧ ¬ Value.vGroup [iAttr "y" 2, iAttr "x" 1] = Value.vGroup [iAttr "x" 1, iAttr "y" 2] := by
  refine ⟨rfl, ?_⟩
  simp [iAttr]

/-- C4 amended: the scenario's final output is the group attribute `G`
containing, in order, `y=2` then `x=1` (followed by the level and message
built-ins, which the merge reorders after the group). -/
theorem scenario_order_amended :
    (scenarioHandler.handleCloned scenarioRecord).attrs
      = [Attr.mk "G" (Value.vGroup [iAttr "y" 2, iAttr "x" 1]),
         Attr.mk "level" (Value.vAnyLevel 0), Attr.mk "msg" (Value.vString "m")] := rfl

/-- C5 counterexample: a `replaceAttr` callback that returns the zero
attribute for the built-in level key; the zero (empty) attribute appears in
the final output — it is appended, not suppressed. -/
theorem empty_attr_counterexample :
    (dropLevelHandler.handleCloned plainRecord).attrs
      = [zeroAttr, Attr.mk "msg" (Value.vString "m")]
    ∧ zeroAttr.isEmpty = true := ⟨rfl, rfl⟩

/-- C5 amended: only the record's own attributes are screened for emptiness,
after resolution and before `replaceAttr`: an attribute of the record whose
resolved form is empty contributes nothing to the processed record
attributes.  (Zero attributes returned by `replaceAttr` — including for the
built-ins — and empty attributes stored in accumulated batches are appended
unchecked.) -/
theorem record_attrs_drop_empty :
    ∀ (l1 l2 : List Attr) (a : Attr), (Attr.mk a.key a.value.Resolve).isEmpty = true →
    processRecordAttrs (l1 ++ a :: l2) = processRecordAttrs (l1 ++ l2) := by
  intro l1
  induction l1 with
  | nil =>
    intro l2 a h
    rw [List.nil_append, List.nil_append, processRecordAttrs, if_pos h]
  | cons b rest ih =>
    intro l2 a h
    rw [List.cons_append, List.cons_append, processRecordAttrs, processRecordAttrs,
      ih _ _ h]

/-- Witness for the amended C5 at a concrete record attribute list. -/
theorem record_attrs_drop_empty_witness :
    processRecordAttrs ([iAttr "a" 1] ++ zeroAttr :: [iAttr "b" 2])
      = processRecordAttrs ([iAttr "a" 1] ++ [iAttr "b" 2]) :=
  record_attrs_drop_empty [iAttr "a" 1] [iAttr "b" 2] zeroAttr rfl

/-- C6 counterexample: with a `replaceAttr` that renames key `a` to `b` and
one accumulated batch `[a=1]` before any group frame, a `Handle` call leaves
the handler's stored batch rewritten to `[b=1]` — the stored frame list is
not equal to what it was before the call. -/
theorem handle_mutation_counterexample :
    renameHandler.handleUpdatedGoas plainRecord = [GroupOrAttrs.mk "" [iAttr "b" 1]]
    ∧ renameHandler.groupsOrAttrs.data = [GroupOrAttrs.mk "" [iAttr "a" 1]]
    ∧ ¬ [GroupOrAttrs.mk "" [iAttr "b" 1]] = [GroupOrAttrs.mk "" [iAttr "a" 1]] := by
  refine ⟨rfl, rfl, ?_⟩
  simp [iAttr]

/-- C6 amended: `mergeAttrs` allocates its result and never writes into its
inputs (it is a pure function of them, as embedded), and a `Handle` call
leaves the stored frame list unchanged whenever no `replaceAttr` callback is
configured; when one is configured, each attribute batch stored before the
first group-push frame is overwritten in place with its `replaceAttr`-mapped
attributes and every other frame is untouched (`mutatedFrames`). -/
theorem handle_frame_effect (h : AttrHandler) (rec : Record) :
    (h.replaceAttr = none → h.handleUpdatedGoas rec = h.groupsOrAttrs.data)
    ∧ h.handleUpdatedGoas rec = mutatedFrames h.replaceAttr h.groupsOrAttrs.data := by
  refine ⟨?_, handleUpdatedGoas_eq h rec⟩
  intro hra
  rw [handleUpdatedGoas_eq h rec, hra, mutatedFrames_none]

/-- Witness for the amended C6: a handler without `replaceAttr` keeps its
stored frames across `Handle`. -/
theorem handle_frame_effect_witness :
    plainBatchHandler.handleUpdatedGoas plainRecord = plainBatchHandler.groupsOrAttrs.data :=
  (handle_frame_effect plainBatchHandler plainRecord).1 rfl

/-- C7: `WithGroup ""` and `WithAttrs []` are no-ops returning the handler
itself; otherwise each returns a new handler whose frame list is the parent's
extended by exactly one frame, built by `copyAppend`, whose capacity equals
its length — the exact-capacity allocation that prevents sibling derivations
from sharing spare storage (the parent's own frame list is a value the
derivation never writes to in this embedding). -/
theorem with_ops_contract (h : AttrHandler) (name : String) (attrs : List Attr) :
    h.WithGroup "" = h
    ∧ h.WithAttrs [] = h
    ∧ (¬ name = "" →
        (h.WithGroup name).groupsOrAttrs.data
            = h.groupsOrAttrs.data ++ [GroupOrAttrs.mk name []]
        ∧ (h.WithGroup name).groupsOrAttrs.cap
            = (h.WithGroup name).groupsOrAttrs.data.length)
    ∧ (¬ attrs = [] →
        (h.WithAttrs attrs).groupsOrAttrs.data
            = h.groupsOrAttrs.data ++ [GroupOrAttrs.mk "" attrs]
        ∧ (h.WithAttrs attrs).groupsOrAttrs.cap
            = (h.WithAttrs attrs).groupsOrAttrs.data.length) := by
  refine ⟨?_, ?_, ?_, ?_⟩
  · rw [AttrHandler.WithGroup, if_pos rfl]
  · simp [AttrHandler.WithAttrs]
  · intro hn
    rw [AttrHandler.WithGroup, if_neg hn]
    exact ⟨rfl, by simp [copyAppend]⟩
  · intro ha
    have hlen : ¬ attrs.length = 0 := by
      simpa using ha
    rw [AttrHandler.WithAttrs, if_neg hlen]
    exact ⟨rfl, by simp [copyAppend]⟩

/-- Witness for C7: both derivations applied to the fresh handler. -/
theorem with_ops_contract_witness :
    ((NewAttrHandler none none none).WithGroup "G").groupsOrAttrs.data
      = (NewAttrHandler none none none).groupsOrAttrs.data ++ [GroupOrAttrs.mk "G" []]
    ∧ ((NewAttrHandler none none none).WithAttrs [iAttr "a" 1]).groupsOrAttrs.data
      = (NewAttrHandler none none none).groupsOrAttrs.data
          ++ [GroupOrAttrs.mk "" [iAttr "a" 1]] :=
  ⟨((with_ops_contract (NewAttrHandler none none none) "G" [iAttr "a" 1]).2.2.1
      (by decide)).1,
   ((with_ops_contract (NewAttrHandler none none none) "G" [iAttr "a" 1]).2.2.2
      (by simp)).1⟩

theorem dropWhile_self_idem {α : Type} (p : α → Bool) :
    ∀ xs : List α, (xs.dropWhile p).dropWhile p = xs.dropWhile p := by
  intro xs
  induction xs with
  | nil => rfl
  | cons a t ih =>
    by_cases hp : p a = true
    · rw [List.dropWhile_cons_of_pos hp, ih]
    · rw [List.dropWhile_cons_of_neg hp, List.dropWhile_cons_of_neg hp]

theorem trimTrailingGroups_idem (l : List GroupOrAttrs) :
    trimTrailingGroups (trimTrailingGroups l) = trimTrailingGroups l := by
  unfold trimTrailingGroups
  rw [List.reverse_reverse, dropWhile_self_idem]

/-- C8: for a record with no attributes, trailing group-push frames are
trimmed before attribute assembly: appending any number of `WithGroup`
derivations to a handler state does not change the built attribute list or
the record passed to the sink, and replacing any handler's frame list by its
trimmed form (with any capacity) leaves the built attribute list unchanged. -/
theorem trailing_group_elision (h : AttrHandler) (names : List String) (rec : Record)
    (hne : ∀ nm ∈ names, ¬ nm = "") (hrec : rec.attrs = []) :
    ((names.foldl AttrHandler.WithGroup h).buildRecordAttrs rec).1
        = (h.buildRecordAttrs rec).1
    ∧ (names.foldl AttrHandler.WithGroup h).handleCloned rec = h.handleCloned rec
    ∧ (∀ c : Nat,
        (AttrHandler.buildRecordAttrs
            { h with groupsOrAttrs :=
                GoSlice.mk (trimTrailingGroups h.groupsOrAttrs.data) c } rec).1
          = (h.buildRecordAttrs rec).1) := by
  have htrim : ∀ c : Nat,
      (AttrHandler.buildRecordAttrs
          { h with groupsOrAttrs :=
              GoSlice.mk (trimTrailingGroups h.groupsOrAttrs.data) c } rec).1
        = (h.buildRecordAttrs rec).1 := by
    intro c
    unfold AttrHandler.buildRecordAttrs
    show (recordPhase h.replaceAttr
        (walkGoas h.replaceAttr [] (builtinAttrs h.replaceAttr rec)
          (walkedFrames (trimTrailingGroups h.groupsOrAttrs.data) rec)).1 _ _) = _
    have : walkedFrames (trimTrailingGroups h.groupsOrAttrs.data) rec
        = walkedFrames h.groupsOrAttrs.data rec := by
      unfold walkedFrames
      rw [hrec]
      simp only [List.length_nil, Nat.zero_lt_one, if_true, if_pos]
      exact trimTrailingGroups_idem _
    rw [this]
  rcases foldl_WithGroup_fields names h hne with ⟨hdata, hra⟩
  have hwalked : walkedFrames (names.foldl AttrHandler.WithGroup h).groupsOrAttrs.data rec
      = walkedFrames h.groupsOrAttrs.data rec := by
    rw [hdata]
    unfold walkedFrames
    rw [hrec]
    simp only [List.length_nil, Nat.zero_lt_one, if_true, if_pos]
    exact trim_append_groupFrames _ hne
  have h1 : ((names.foldl AttrHandler.WithGroup h).buildRecordAttrs rec).1
      = (h.buildRecordAttrs rec).1 := by
    unfold AttrHandler.buildRecordAttrs
    rw [hra, hwalked]
  refine ⟨h1, ?_, htrim⟩
  unfold AttrHandler.handleCloned
  rw [h1]

/-- Witness for C8: one trailing group on a handler with one batch. -/
theorem trailing_group_elision_witness :
    (["G"].foldl AttrHandler.WithGroup plainBatchHandler).handleCloned plainRecord
      = plainBatchHandler.handleCloned plainRecord :=
  (trailing_group_elision plainBatchHandler ["G"] plainRecord
    (by decide) rfl).2.1

/-- C9 counterexample: with two group names and empty data, each wrap elides
the previous empty group (`GroupValue` removes empty-group members), so the
result is a single group keyed by the outermost name with no children — not
a nest reaching the innermost name. -/
theorem applyGroups_counterexample :
    applyGroupsToAttrs ["a", "b"] [] = [Attr.mk "a" (Value.vGroup [])]
    ∧ ¬ applyGroupsToAttrs ["a", "b"] []
        = [Attr.mk "a" (Value.vGroup [Attr.mk "b" (Value.vGroup [])])] := by
  refine ⟨rfl, ?_⟩
  simp [applyGroupsToAttrs, wrapFrom, SlogGroupAttrs, GroupValue, Value.isEmptyGroup]

/-- C9 amended: `applyGroupsToAttrs` returns `data` unchanged for an empty
name list; otherwise it returns the one-element list whose member is the
innermost-first nest `nestWrap`, where every wrap goes through
`SlogGroupAttrs`/`GroupValue` and therefore drops children that are empty
groups (in particular a previously built empty wrapper). -/
theorem applyGroups_nest :
    (∀ data : List Attr, applyGroupsToAttrs [] data = data)
    ∧ (∀ (g : String) (gs : List String) (data : List Attr),
        applyGroupsToAttrs (g :: gs) data = [nestWrap (g :: gs) data]) := by
  have hwrap : ∀ (gs : List String) (g : String) (data : List Attr),
      wrapFrom g gs data = nestWrap (g :: gs) data := by
    intro gs
    induction gs with
    | nil => intro g data; rfl
    | cons g2 rest ih =>
      intro g data
      rw [wrapFrom, ih]
      rfl
  exact ⟨fun _ => rfl, fun g gs data => by rw [applyGroupsToAttrs, hwrap]⟩

/-- C10: one `Handle` call invokes the sink's capture callback at most once —
exactly once when one is configured, on the cloned record, with `Handle`
returning precisely the callback's outcome — returns `none` (nil error) when
no callback is configured, and never consults the configured level. -/
theorem handle_capture_contract (h : AttrHandler) (rec : Record) :
    (h.handleCaptureCalls rec).length ≤ 1
    ∧ (∀ c, h.captureRecord = some c →
        h.handleCaptureCalls rec = [h.handleCloned rec]
        ∧ h.Handle rec = c (h.handleCloned rec))
    ∧ (h.captureRecord = none →
        h.Handle rec = none ∧ h.handleCaptureCalls rec = [])
    ∧ (∀ lvl, (h.setLevel lvl).Handle rec = h.Handle rec) := by
  refine ⟨?_, ?_, ?_, fun lvl => rfl⟩
  · unfold AttrHandler.handleCaptureCalls
    rcases h.captureRecord with _ | c <;> simp
  · intro c hc
    unfold AttrHandler.handleCaptureCalls AttrHandler.Handle
    rw [hc]
    exact ⟨rfl, rfl⟩
  · intro hc
    unfold AttrHandler.handleCaptureCalls AttrHandler.Handle
    rw [hc]
    exact ⟨rfl, rfl⟩

/-- Witness for C10: a configured capture callback is invoked once and its
outcome is returned; an unconfigured one yields `none`. -/
theorem handle_capture_contract_witness :
    boomHandler.Handle plainRecord = some "boom"
    ∧ boomHandler.handleCaptureCalls plainRecord = [boomHandler.handleCloned plainRecord]
    ∧ plainBatchHandler.Handle plainRecord = none
    ∧ (boomHandler.setLevel (some 4)).Handle plainRecord = boomHandler.Handle plainRecord :=
  ⟨((handle_capture_contract boomHandler plainRecord).2.1 boomCapture rfl).2.trans rfl,
   ((handle_capture_contract boomHandler plainRecord).2.1 boomCapture rfl).1,
   ((handle_capture_contract plainBatchHandler plainRecord).2.2.1 rfl).1,
   (handle_capture_contract boomHandler plainRecord).2.2.2 (some 4)⟩

end Logg
